import Mathlib

set_option maxHeartbeats 1000000

/- A shallow embedding of the CSP solver of src/oving3/solution.py.

   Modelling decisions, uniform throughout:
   * Python dictionaries become insertion-ordered association lists
     (`lookupKey` returns the first binding; `setKey` overwrites in place,
     or appends when the key is new — exactly `d[k] = v`).
   * Python exceptions become an explicit error result (`Err.keyError` for a
     missing dictionary key, `Err.valueError` for `min` of an empty sequence).
     An error aborts the whole computation, as an uncaught exception does.
   * `copy.deepcopy` gives the Python code value semantics for the branched
     assignment, so the recursive driver is embedded as a pure function; its
     recursion carries an explicit depth budget, spent only when `backtrack`
     calls itself through the value loop (`Err.outOfFuel` marks exhaustion,
     an outcome the Python code cannot produce).
   * Variable names and values are both embedded as `Nat`. -/

inductive Err where
  | keyError
  | valueError
  | outOfFuel
deriving DecidableEq

abbrev Dom := List Nat

abbrev Assignment := List (Nat × Dom)

abbrev CMap := List (Nat × (Nat → Nat → Bool))

abbrev Cons := List (Nat × CMap)

/-- First binding of `key` in an association list: Python `d[key]`. -/
def lookupKey {α : Type} : List (Nat × α) → Nat → Option α
  | [], _ => none
  | (k, v) :: rest, key => if k = key then some v else lookupKey rest key

/-- Python `d[key] = v`: overwrite the existing binding in place, else append. -/
def setKey {α : Type} : List (Nat × α) → Nat → α → List (Nat × α)
  | [], key, v => [(key, v)]
  | (k, w) :: rest, key, v =>
      if k = key then (k, v) :: rest else (k, w) :: setKey rest key v

/-- Python `self.constraints[i][j]`. -/
def lookupCons (cons : Cons) (i j : Nat) : Option (Nat → Nat → Bool) :=
  match lookupKey cons i with
  | none => none
  | some m => lookupKey m j

theorem lookupKey_setKey_self {α : Type} (xs : List (Nat × α)) (k : Nat) (v : α) :
    lookupKey (setKey xs k v) k = some v := by
  induction xs with
  | nil => simp [setKey, lookupKey]
  | cons hd tl ih =>
      obtain ⟨k', w⟩ := hd
      by_cases h : k' = k <;> simp [setKey, lookupKey, h, ih]

theorem lookupKey_setKey_ne {α : Type} (xs : List (Nat × α)) (k k' : Nat) (v : α)
    (h : k' ≠ k) : lookupKey (setKey xs k v) k' = lookupKey xs k' := by
  induction xs with
  | nil =>
      simp [setKey, lookupKey]
      exact fun h' => h h'.symm
  | cons hd tl ih =>
      obtain ⟨k'', w⟩ := hd
      by_cases h1 : k'' = k <;> by_cases h2 : k'' = k' <;>
        simp_all [setKey, lookupKey]

theorem setKey_eq_self {α : Type} (xs : List (Nat × α)) (k : Nat) (v : α)
    (h : lookupKey xs k = some v) : setKey xs k v = xs := by
  induction xs with
  | nil => simp [lookupKey] at h
  | cons hd tl ih =>
      obtain ⟨k', w⟩ := hd
      by_cases h1 : k' = k
      · subst h1
        simp [lookupKey] at h
        simp [setKey, h]
      · simp [lookupKey, h1] at h
        simp [setKey, h1, ih h]

theorem lookupKey_append {α : Type} (xs ys : List (Nat × α)) (k : Nat) :
    lookupKey (xs ++ ys) k =
      match lookupKey xs k with
      | some v => some v
      | none => lookupKey ys k := by
  induction xs with
  | nil => simp [lookupKey]
  | cons hd tl ih =>
      obtain ⟨k', w⟩ := hd
      by_cases h : k' = k <;> simp [lookupKey, h, ih]

theorem setKey_append_of_none {α : Type} (xs : List (Nat × α)) (k : Nat) (v : α)
    (h : lookupKey xs k = none) : setKey xs k v = xs ++ [(k, v)] := by
  induction xs with
  | nil => simp [setKey]
  | cons hd tl ih =>
      obtain ⟨k', w⟩ := hd
      by_cases h1 : k' = k
      · simp [lookupKey, h1] at h
      · simp [lookupKey, h1] at h
        simp [setKey, h1, ih h]

theorem setKey_setKey {α : Type} (xs : List (Nat × α)) (k : Nat) (v w : α) :
    setKey (setKey xs k v) k w = setKey xs k w := by
  induction xs with
  | nil => simp [setKey]
  | cons hd tl ih =>
      obtain ⟨k', u⟩ := hd
      by_cases h : k' = k <;> simp [setKey, h, ih]

theorem setKey_keys_of_mem {α : Type} (xs : List (Nat × α)) (k : Nat) (v : α)
    (h : (lookupKey xs k).isSome) :
    (setKey xs k v).map Prod.fst = xs.map Prod.fst := by
  induction xs with
  | nil => simp [lookupKey] at h
  | cons hd tl ih =>
      obtain ⟨k', w⟩ := hd
      by_cases h1 : k' = k
      · simp [setKey, h1]
      · simp [lookupKey, h1] at h
        simp [setKey, h1, ih h]

theorem lookupKey_eq_none_iff {α : Type} (xs : List (Nat × α)) (k : Nat) :
    lookupKey xs k = none ↔ k ∉ xs.map Prod.fst := by
  induction xs with
  | nil => simp [lookupKey]
  | cons hd tl ih =>
      obtain ⟨k', w⟩ := hd
      by_cases h : k' = k
      · simp [lookupKey, h]
      · simp only [lookupKey, if_neg h, ih, List.map_cons, List.mem_cons]
        constructor
        · intro hn
          exact fun hc => hc.elim (fun he => h he.symm) hn
        · intro hn
          exact fun hm => hn (Or.inr hm)

theorem lookupKey_isSome_of_mem_keys {α : Type} (xs : List (Nat × α)) (k : Nat)
    (h : k ∈ xs.map Prod.fst) : (lookupKey xs k).isSome := by
  cases hx : lookupKey xs k with
  | none => exact absurd h ((lookupKey_eq_none_iff xs k).mp hx)
  | some v => rfl

/- ## The constraint-graph data model (class CSP) -/

structure CSP where
  varNames : List Nat
  domains : Assignment
  constraints : Cons

/-- `CSP.__init__`. -/
def CSP.empty : CSP := ⟨[], [], []⟩

/-- `add_variable(name, domain)`. -/
def add_variable (c : CSP) (name : Nat) (dom : Dom) : CSP :=
  { varNames := c.varNames ++ [name]
    domains := setKey c.domains name dom
    constraints := setKey c.constraints name [] }

/-- `get_all_possible_pairs(a, b)`: `itertools.product`, first list outermost. -/
def get_all_possible_pairs : List Nat → List Nat → List (Nat × Nat)
  | [], _ => []
  | x :: xs, ys => ys.map (fun y => (x, y)) ++ get_all_possible_pairs xs ys

/-- `get_all_arcs()`: every `(i, j)` with a registered constraint, in
dictionary insertion order. -/
def get_all_arcs : Cons → List (Nat × Nat)
  | [] => []
  | (i, m) :: rest => m.map (fun q => (i, q.1)) ++ get_all_arcs rest

/-- `get_all_neighboring_arcs(var)`: `[(i, var) for i in self.constraints[var]]`.
`none` is the `KeyError` on a variable absent from `self.constraints`. -/
def get_all_neighboring_arcs (cons : Cons) (var : Nat) : Option (List (Nat × Nat)) :=
  match lookupKey cons var with
  | none => none
  | some m => some (m.map (fun q => (q.1, var)))

/-- The predicate stored by `add_all_different_constraint`: `lambda x, y: x != y`. -/
def neqPred : Nat → Nat → Bool := fun x y => x != y

/-- `add_constraint_one_way(i, j, f)`: first registration wins;
`KeyError` when `i` was never added as a variable. -/
def add_constraint_one_way (c : CSP) (i j : Nat) (f : Nat → Nat → Bool) :
    Except Err CSP :=
  match lookupKey c.constraints i with
  | none => .error .keyError
  | some m =>
    match lookupKey m j with
    | some _ => .ok c
    | none => .ok { c with constraints := setKey c.constraints i (setKey m j f) }

/-- The loop of `add_all_different_constraint` over the pair list. -/
def addPairs : CSP → List (Nat × Nat) → Except Err CSP
  | c, [] => .ok c
  | c, (i, j) :: ps =>
      if i = j then addPairs c ps
      else
        match add_constraint_one_way c i j neqPred with
        | .error e => .error e
        | .ok c' => addPairs c' ps

/-- `add_all_different_constraint(var_list)`. -/
def add_all_different_constraint (c : CSP) (l : List Nat) : Except Err CSP :=
  addPairs c (get_all_possible_pairs l l)

/- ## revise -/

/-- The body of `revise`: `for x in assignment[i]: ...`.  The Python iterator
walks the list object by index while `assignment[i].remove(x)` shrinks that
same object, so a removal makes the iterator skip the element that slides
into the removed slot.  `dom` is the current state of the list object being
iterated (the binding of `i`), `a0` the rest of the assignment (no other
binding is touched); when `j = i` the inner `assignment[j]` aliases the
mutated object.  `assignment[j]` is evaluated before the constraint lookup,
and an empty `assignment[j]` makes `all` true without ever touching
`self.constraints[i][j]`, exactly as the generator expression does. -/
def reviseLoop (cons : Cons) (a0 : Assignment) (i j : Nat) (idx : Nat)
    (dom : Dom) (revised : Bool) : Except Err (Bool × Dom) :=
  if h : idx < dom.length then
    let x := dom[idx]
    match (if j = i then some dom else lookupKey a0 j) with
    | none => .error .keyError
    | some domJ =>
      if domJ = [] then
        reviseLoop cons a0 i j (idx + 1) (dom.erase x) true
      else
        match lookupCons cons i j with
        | none => .error .keyError
        | some sat =>
          if domJ.all (fun y => !sat x y) then
            reviseLoop cons a0 i j (idx + 1) (dom.erase x) true
          else
            reviseLoop cons a0 i j (idx + 1) dom revised
  else .ok (revised, dom)
termination_by dom.length - idx
decreasing_by
  all_goals
    first
    | omega
    | (have hle := (List.erase_sublist dom[idx] dom).length_le
       omega)

/-- `revise(assignment, i, j)`: returns the flag and the updated assignment. -/
def revise (cons : Cons) (a : Assignment) (i j : Nat) :
    Except Err (Bool × Assignment) :=
  match lookupKey a i with
  | none => .error .keyError
  | some dom =>
    match reviseLoop cons a i j 0 dom false with
    | .error e => .error e
    | .ok (revised, dom') => .ok (revised, setKey a i dom')


theorem reviseLoop_spec (cons : Cons) (a0 : Assignment) (i j : Nat) :
    ∀ (idx : Nat) (dom : Dom) (revised : Bool) (r' : Bool) (dom' : Dom),
    reviseLoop cons a0 i j idx dom revised = .ok (r', dom') →
    dom' ⊆ dom ∧ dom'.length ≤ dom.length ∧
      (revised = true → r' = true) ∧
      (revised = false → r' = false → dom' = dom) ∧
      (revised = false → r' = true → dom'.length < dom.length) := by
  intro idx dom revised
  induction idx, dom, revised using reviseLoop.induct cons a0 i j with
  | case1 idx dom revised hlt hj =>
      intro r' dom' heq
      rw [reviseLoop] at heq
      rw [dite_eq_ite] at hj
      simp [dif_pos hlt, hj] at heq
  | case2 idx dom revised hlt x hj ih =>
      intro r' dom' heq
      rw [reviseLoop] at heq
      rw [dite_eq_ite] at hj
      simp only [dif_pos hlt, hj] at heq
      simp at heq
      have hmem : x ∈ dom := List.getElem_mem hlt
      have hlen := List.length_erase_of_mem hmem
      obtain ⟨hsub, hle, hmono, _, _⟩ := ih r' dom' heq
      refine ⟨fun z hz => List.erase_subset _ _ (hsub hz), by omega,
        fun _ => hmono rfl, ?_, ?_⟩
      · intro _ hr'
        exact absurd (hmono rfl) (by rw [hr']; simp)
      · intro _ _
        omega
  | case3 idx dom revised hlt domJ hj hne hcons =>
      intro r' dom' heq
      rw [reviseLoop] at heq
      rw [dite_eq_ite] at hj
      simp [dif_pos hlt, hj, hne, hcons] at heq
  | case4 idx dom revised hlt x domJ hj hne sat hcons hall ih =>
      intro r' dom' heq
      rw [reviseLoop] at heq
      rw [dite_eq_ite] at hj
      simp only [dif_pos hlt, hj, hcons] at heq
      simp [hne, hall] at heq
      have hmem : x ∈ dom := List.getElem_mem hlt
      have hlen := List.length_erase_of_mem hmem
      obtain ⟨hsub, hle, hmono, _, _⟩ := ih r' dom' heq
      refine ⟨fun z hz => List.erase_subset _ _ (hsub hz), by omega,
        fun _ => hmono rfl, ?_, ?_⟩
      · intro _ hr'
        exact absurd (hmono rfl) (by rw [hr']; simp)
      · intro _ _
        omega
  | case5 idx dom revised hlt x domJ hj hne sat hcons hall ih =>
      intro r' dom' heq
      rw [reviseLoop] at heq
      rw [dite_eq_ite] at hj
      simp only [dif_pos hlt, hj, hcons] at heq
      simp [hne, hall] at heq
      exact ih r' dom' heq
  | case6 idx dom revised hlt =>
      intro r' dom' heq
      rw [reviseLoop] at heq
      simp [dif_neg hlt] at heq
      obtain ⟨h1, h2⟩ := heq
      subst h1; subst h2
      refine ⟨fun _ hm => hm, le_refl _, fun hr => hr, fun _ _ => rfl, ?_⟩
      intro h1 h2
      rw [h1] at h2
      exact absurd h2 (by simp)

/-- Total number of values over all domains of an assignment; the measure
that shrinks whenever `revise` reports a removal. -/
def totalSize (a : Assignment) : Nat := (a.map (fun p => p.2.length)).sum

theorem totalSize_setKey (a : Assignment) (i : Nat) (d e : Dom)
    (h : lookupKey a i = some d) :
    totalSize (setKey a i e) + d.length = totalSize a + e.length := by
  induction a with
  | nil => simp [lookupKey] at h
  | cons hd tl ih =>
      obtain ⟨k, w⟩ := hd
      by_cases h1 : k = i
      · subst h1
        simp [lookupKey] at h
        subst h
        simp [setKey, totalSize]
        omega
      · simp [lookupKey, h1] at h
        simp [setKey, h1, totalSize] at ih ⊢
        have := ih h
        omega

theorem revise_subset (cons : Cons) (a : Assignment) (i j : Nat) (b : Bool)
    (a' : Assignment) (h : revise cons a i j = .ok (b, a')) :
    ∀ v d', lookupKey a' v = some d' → ∃ d, lookupKey a v = some d ∧ d' ⊆ d := by
  unfold revise at h
  cases hd : lookupKey a i with
  | none =>
      simp only [hd] at h
      exact absurd h (by simp)
  | some dom =>
      simp only [hd] at h
      cases hl : reviseLoop cons a i j 0 dom false with
      | error e =>
          simp only [hl] at h
          exact absurd h (by simp)
      | ok p =>
          obtain ⟨r', dom'⟩ := p
          simp only [hl] at h
          simp at h
          obtain ⟨hb, ha'⟩ := h
          subst ha'
          intro v d' hv
          by_cases hvi : v = i
          · subst hvi
            rw [lookupKey_setKey_self] at hv
            obtain ⟨hsub, _, _, _, _⟩ := reviseLoop_spec cons a v j 0 dom false r' dom' hl
            injection hv with hv
            subst hv
            exact ⟨dom, hd, hsub⟩
          · rw [lookupKey_setKey_ne _ _ _ _ hvi] at hv
            exact ⟨d', hv, fun _ hm => hm⟩

theorem revise_true_totalSize (cons : Cons) (a : Assignment) (i j : Nat)
    (a' : Assignment) (h : revise cons a i j = .ok (true, a')) :
    totalSize a' < totalSize a := by
  unfold revise at h
  cases hd : lookupKey a i with
  | none =>
      simp only [hd] at h
      exact absurd h (by simp)
  | some dom =>
      simp only [hd] at h
      cases hl : reviseLoop cons a i j 0 dom false with
      | error e =>
          simp only [hl] at h
          exact absurd h (by simp)
      | ok p =>
          obtain ⟨r', dom'⟩ := p
          simp only [hl] at h
          simp at h
          obtain ⟨hb, ha'⟩ := h
          subst ha'
          obtain ⟨_, _, _, _, hstrict⟩ := reviseLoop_spec cons a i j 0 dom false r' dom' hl
          have hkey := totalSize_setKey a i dom dom' hd
          have := hstrict rfl hb
          omega

theorem revise_false_eq (cons : Cons) (a : Assignment) (i j : Nat)
    (a' : Assignment) (h : revise cons a i j = .ok (false, a')) : a' = a := by
  unfold revise at h
  cases hd : lookupKey a i with
  | none =>
      simp only [hd] at h
      exact absurd h (by simp)
  | some dom =>
      simp only [hd] at h
      cases hl : reviseLoop cons a i j 0 dom false with
      | error e =>
          simp only [hl] at h
          exact absurd h (by simp)
      | ok p =>
          obtain ⟨r', dom'⟩ := p
          simp only [hl] at h
          simp at h
          obtain ⟨hb, ha'⟩ := h
          subst ha'
          obtain ⟨_, _, _, hfix, _⟩ := reviseLoop_spec cons a i j 0 dom false r' dom' hl
          rw [hfix rfl hb]
          exact setKey_eq_self a i dom hd

/-- `inference(assignment, queue)`: the AC-3 loop.  Arcs are popped from the
front; when `revise` reports a removal the emptiness of `assignment[i]` is
checked, and otherwise every arc `(k, i)` delivered by
`get_all_neighboring_arcs(i)` with `k != j` is appended at the back.  The
pair returned carries the boolean result together with the assignment state
the loop leaves behind (the Python code mutates it in place). -/
def inference (cons : Cons) (a : Assignment) (queue : List (Nat × Nat)) :
    Except Err (Bool × Assignment) :=
  match queue with
  | [] => .ok (true, a)
  | (i, j) :: q =>
    match hr : revise cons a i j with
    | .error e => .error e
    | .ok (revised, a') =>
      if hrev : revised = true then
        match lookupKey a' i with
        | none => .error .keyError
        | some domI =>
          if domI = [] then .ok (false, a')
          else
            match get_all_neighboring_arcs cons i with
            | none => .error .keyError
            | some arcs =>
              inference cons a' (q ++ arcs.filter (fun k => k.1 ≠ j))
      else
        inference cons a' q
termination_by (totalSize a, queue.length)
decreasing_by
  · exact Prod.Lex.left _ _ (revise_true_totalSize cons a i j a' (hrev ▸ hr))
  · have : a' = a := revise_false_eq cons a i j a' (by
      rw [hr]; congr 1; exact congrArg (fun b => (b, a')) (by
        cases revised with
        | false => rfl
        | true => exact absurd rfl hrev))
    rw [this]
    exact Prod.Lex.right _ (by simp [List.length_cons])

/-- `all(len(assignment[var]) == 1 for var in self.variables)`:
left-to-right, short-circuiting, `KeyError` on a missing variable. -/
def allComplete (a : Assignment) : List Nat → Except Err Bool
  | [] => .ok true
  | v :: vs =>
    match lookupKey a v with
    | none => .error .keyError
    | some d => if d.length = 1 then allComplete a vs else .ok false

/-- `len(assignment[var])`, as used by the `key` lambda of `min` (every
variable passed to it is present, so the default never matters). -/
def keyLen (a : Assignment) (v : Nat) : Nat := ((lookupKey a v).getD []).length

/-- Python `min(cur :: vs, key=keyLen)`: keep the current minimum and
replace it only on a strictly smaller key, so the first minimum wins. -/
def minLoop (a : Assignment) (cur : Nat) : List Nat → Nat
  | [] => cur
  | v :: vs => if keyLen a v < keyLen a cur then minLoop a v vs else minLoop a cur vs

/-- `[var for var in self.variables if len(assignment[var]) > 1]`. -/
def unassigned_vars (a : Assignment) : List Nat → Except Err (List Nat)
  | [] => .ok []
  | v :: vs =>
    match lookupKey a v with
    | none => .error .keyError
    | some d =>
      match unassigned_vars a vs with
      | .error e => .error e
      | .ok l => .ok (if 1 < d.length then v :: l else l)

/-- `select_unassigned_variable(assignment)`: `min` over the undecided
variables; `min` of an empty sequence raises `ValueError`. -/
def select_unassigned_variable (vars : List Nat) (a : Assignment) : Except Err Nat :=
  match unassigned_vars a vars with
  | .error e => .error e
  | .ok [] => .error .valueError
  | .ok (v :: vs) => .ok (minLoop a v vs)

mutual

/-- `backtrack(assignment)`.  The depth budget falls by one whenever the
driver recurses through the value loop; the Python code has no such budget,
so `Err.outOfFuel` never corresponds to a Python outcome, and every claim
evaluated below supplies a budget large enough for it not to occur.
`.ok none` is Python `None`, `.ok (some a)` a returned assignment. -/
def backtrack (cons : Cons) (vars : List Nat) : Nat → Assignment →
    Except Err (Option Assignment)
  | 0, _ => .error .outOfFuel
  | fuel + 1, a =>
    match allComplete a vars with
    | .error e => .error e
    | .ok true => .ok (some a)
    | .ok false =>
      match select_unassigned_variable vars a with
      | .error e => .error e
      | .ok var =>
        match lookupKey a var with
        | none => .error .keyError
        | some vals => tryValues cons vars fuel a var vals
termination_by fuel _ => (fuel, 0)

/-- The `for value in assignment[var]` loop of `backtrack`: each iteration
copies the parent assignment (`copy.deepcopy` — value semantics here),
collapses `var` to `[value]`, runs the engine on `var`'s neighboring arcs
and recurses when it reports consistency. -/
def tryValues (cons : Cons) (vars : List Nat) : Nat → Assignment → Nat →
    List Nat → Except Err (Option Assignment)
  | _, _, _, [] => .ok none
  | fuel, a, var, v :: vs =>
    match get_all_neighboring_arcs cons var with
    | none => .error .keyError
    | some arcs =>
      match inference cons (setKey a var [v]) arcs with
      | .error e => .error e
      | .ok (consistent, na) =>
        if consistent then
          match backtrack cons vars fuel na with
          | .error e => .error e
          | .ok (some r) => .ok (some r)
          | .ok none => tryValues cons vars fuel a var vs
        else tryValues cons vars fuel a var vs
termination_by fuel _ _ l => (fuel, l.length + 1)

end

/-- `backtracking_search()`: deep-copy the domains, run AC-3 over all arcs
(result ignored, mutation kept), then call `backtrack`. -/
def backtracking_search (fuel : Nat) (csp : CSP) : Except Err (Option Assignment) :=
  match inference csp.constraints csp.domains (get_all_arcs csp.constraints) with
  | .error e => .error e
  | .ok (_, a') => backtrack csp.constraints csp.varNames fuel a'

theorem inference_nil (cons : Cons) (a : Assignment) :
    inference cons a [] = .ok (true, a) := by
  rw [inference]

theorem inference_cons_error (cons : Cons) (a : Assignment) (i j : Nat)
    (q : List (Nat × Nat)) (e : Err) (h : revise cons a i j = .error e) :
    inference cons a ((i, j) :: q) = .error e := by
  rw [inference]
  split
  · rename_i e' heq
    rw [h] at heq
    injection heq with heq
    rw [heq]
  · rename_i revised a' heq
    rw [h] at heq
    exact absurd heq (by simp)

theorem inference_cons_false (cons : Cons) (a a' : Assignment) (i j : Nat)
    (q : List (Nat × Nat)) (h : revise cons a i j = .ok (false, a')) :
    inference cons a ((i, j) :: q) = inference cons a' q := by
  rw [inference]
  split
  · rename_i e' heq
    rw [h] at heq
    exact absurd heq (by simp)
  · rename_i revised a'' heq
    rw [h] at heq
    injection heq with heq
    injection heq with h1 h2
    subst h1; subst h2
    simp

theorem inference_cons_true_missing (cons : Cons) (a a' : Assignment) (i j : Nat)
    (q : List (Nat × Nat)) (h : revise cons a i j = .ok (true, a'))
    (hm : lookupKey a' i = none) :
    inference cons a ((i, j) :: q) = .error .keyError := by
  rw [inference]
  split
  · rename_i e' heq
    rw [h] at heq
    exact absurd heq (by simp)
  · rename_i revised a'' heq
    rw [h] at heq
    injection heq with heq
    injection heq with h1 h2
    subst h1; subst h2
    simp [hm]

theorem inference_cons_true_empty (cons : Cons) (a a' : Assignment) (i j : Nat)
    (q : List (Nat × Nat)) (h : revise cons a i j = .ok (true, a'))
    (hm : lookupKey a' i = some []) :
    inference cons a ((i, j) :: q) = .ok (false, a') := by
  rw [inference]
  split
  · rename_i e' heq
    rw [h] at heq
    exact absurd heq (by simp)
  · rename_i revised a'' heq
    rw [h] at heq
    injection heq with heq
    injection heq with h1 h2
    subst h1; subst h2
    simp [hm]

theorem inference_cons_true_enqueue (cons : Cons) (a a' : Assignment) (i j : Nat)
    (q : List (Nat × Nat)) (d : Dom) (arcs : List (Nat × Nat))
    (h : revise cons a i j = .ok (true, a'))
    (hm : lookupKey a' i = some d) (hne : d ≠ [])
    (harcs : get_all_neighboring_arcs cons i = some arcs) :
    inference cons a ((i, j) :: q) =
      inference cons a' (q ++ arcs.filter (fun k => k.1 ≠ j)) := by
  rw [inference]
  split
  · rename_i e' heq
    rw [h] at heq
    exact absurd heq (by simp)
  · rename_i revised a'' heq
    rw [h] at heq
    injection heq with heq
    injection heq with h1 h2
    subst h1; subst h2
    simp [hm, hne, harcs]

theorem inference_cons_true_missing_arcs (cons : Cons) (a a' : Assignment)
    (i j : Nat) (q : List (Nat × Nat)) (d : Dom)
    (h : revise cons a i j = .ok (true, a'))
    (hm : lookupKey a' i = some d) (hne : d ≠ [])
    (harcs : get_all_neighboring_arcs cons i = none) :
    inference cons a ((i, j) :: q) = .error .keyError := by
  rw [inference]
  split
  · rename_i e' heq
    rw [h] at heq
    exact absurd heq (by simp)
  · rename_i revised a'' heq
    rw [h] at heq
    injection heq with heq
    injection heq with h1 h2
    subst h1; subst h2
    simp [hm, hne, harcs]

theorem inference_subset (cons : Cons) :
    ∀ (a : Assignment) (q : List (Nat × Nat)) (b : Bool) (a' : Assignment),
    inference cons a q = .ok (b, a') →
    ∀ v d', lookupKey a' v = some d' → ∃ d, lookupKey a v = some d ∧ d' ⊆ d := by
  intro a q
  induction a, q using inference.induct cons with
  | case1 a =>
      intro b a' h
      rw [inference_nil] at h
      simp at h
      obtain ⟨_, h2⟩ := h
      subst h2
      intro v d' hv
      exact ⟨d', hv, fun _ hm => hm⟩
  | case2 a i j q e hrev =>
      intro b a' h
      rw [inference_cons_error _ _ _ _ _ _ hrev] at h
      exact absurd h (by simp)
  | case3 a i j q a1 hm hrev =>
      intro b a' h
      rw [inference_cons_true_missing _ _ _ _ _ _ hrev hm] at h
      exact absurd h (by simp)
  | case4 a i j q a1 hrev hm =>
      intro b a' h
      rw [inference_cons_true_empty _ _ _ _ _ _ hrev hm] at h
      simp at h
      obtain ⟨_, h2⟩ := h
      subst h2
      exact revise_subset cons a i j true _ hrev
  | case5 a i j q a1 domJ hm hne harcs hrev =>
      intro b a' h
      rw [inference_cons_true_missing_arcs _ _ _ _ _ _ _ hrev hm hne harcs] at h
      exact absurd h (by simp)
  | case6 a i j q a1 domJ hm hne arcs harcs hrev ih =>
      intro b a' h
      rw [inference_cons_true_enqueue _ _ _ _ _ _ _ _ hrev hm hne harcs] at h
      intro v d' hv
      obtain ⟨d1, hd1, hsub1⟩ := ih b a' h v d' hv
      obtain ⟨d0, hd0, hsub0⟩ := revise_subset cons a i j true a1 hrev v d1 hd1
      exact ⟨d0, hd0, fun z hz => hsub0 (hsub1 hz)⟩
  | case7 a i j q revised a1 hrev hnottrue ih =>
      intro b a' h
      have hfalse : revised = false := by
        cases revised with
        | false => rfl
        | true => exact absurd rfl hnottrue
      subst hfalse
      rw [inference_cons_false _ _ _ _ _ _ hrev] at h
      have ha := revise_false_eq cons a i j a1 hrev
      subst ha
      exact ih b a' h

theorem unassigned_vars_eq_filter (a : Assignment) :
    ∀ (vars : List Nat), (∀ v ∈ vars, (lookupKey a v).isSome) →
    unassigned_vars a vars = .ok (vars.filter (fun v => 1 < keyLen a v)) := by
  intro vars
  induction vars with
  | nil => intro _; simp [unassigned_vars]
  | cons v vs ih =>
      intro hall
      have hv := hall v (by simp)
      cases hd : lookupKey a v with
      | none => rw [hd] at hv; exact absurd hv (by simp)
      | some d =>
          have hrest := ih (fun w hw => hall w (by simp [hw]))
          rw [unassigned_vars]
          rw [hd, hrest]
          have hkey : keyLen a v = d.length := by simp [keyLen, hd]
          by_cases h1 : 1 < d.length
          · simp [h1, List.filter_cons, hkey]
          · simp [h1, List.filter_cons, hkey]

theorem minLoop_spec (a : Assignment) :
    ∀ (vs : List Nat) (cur : Nat),
    ∃ p s, cur :: vs = p ++ minLoop a cur vs :: s ∧
      (∀ w ∈ p, keyLen a (minLoop a cur vs) < keyLen a w) ∧
      (∀ w ∈ s, keyLen a (minLoop a cur vs) ≤ keyLen a w) := by
  intro vs
  induction vs with
  | nil =>
      intro cur
      exact ⟨[], [], rfl, by simp, by simp⟩
  | cons v vs' ih =>
      intro cur
      by_cases hlt : keyLen a v < keyLen a cur
      · rw [minLoop, if_pos hlt]
        obtain ⟨p', s', hsplit, hstrict, hle⟩ := ih v
        have hmv : keyLen a (minLoop a v vs') ≤ keyLen a v := by
          cases p' with
          | nil =>
              have hvm : v = minLoop a v vs' := by
                have h0 := hsplit
                simp at h0
                exact h0.1
              rw [← hvm]
          | cons u p'' =>
              have hu : v = u := by
                have h0 := hsplit
                simp at h0
                exact h0.1
              have h1 := hstrict u (by simp)
              rw [← hu] at h1
              exact le_of_lt h1
        refine ⟨cur :: p', s', ?_, ?_, hle⟩
        · simp [hsplit]
        · intro w hw
          rcases List.mem_cons.mp hw with h | h
          · subst h
            omega
          · exact hstrict w h
      · rw [minLoop, if_neg hlt]
        obtain ⟨p, s, hsplit, hstrict, hle⟩ := ih cur
        cases p with
        | nil =>
            have hm : cur = minLoop a cur vs' ∧ vs' = s := by
              have := hsplit
              simp at this
              exact this
            refine ⟨[], v :: vs', by simp [← hm.1], by simp, ?_⟩
            intro w hw
            rcases List.mem_cons.mp hw with h | h
            · subst h
              rw [← hm.1]
              omega
            · rw [hm.2] at h
              exact hle w h
        | cons u p'' =>
            have hu : cur = u ∧ vs' = p'' ++ minLoop a cur vs' :: s := by
              have h0 := hsplit
              simp at h0
              exact h0
            refine ⟨cur :: v :: p'', s,
              by rw [List.cons_append, List.cons_append, ← hu.2], ?_, hle⟩
            intro w hw
            have hmc : keyLen a (minLoop a cur vs') < keyLen a cur := by
              have h1 := hstrict u (by simp)
              rw [← hu.1] at h1
              exact h1
            rcases List.mem_cons.mp hw with h | h
            · subst h
              exact hmc
            · rcases List.mem_cons.mp h with h2 | h2
              · subst h2
                omega
              · exact hstrict w (by simp [h2])

theorem filter_split (P : Nat → Bool) :
    ∀ (vars p s : List Nat) (m : Nat), vars.filter P = p ++ m :: s →
    ∃ l1 l2, vars = l1 ++ m :: l2 ∧ l1.filter P = p ∧ l2.filter P = s ∧ P m = true := by
  intro vars
  induction vars with
  | nil =>
      intro p s m h
      simp at h
  | cons v rest ih =>
      intro p s m h
      by_cases hPv : P v = true
      · rw [List.filter_cons, if_pos hPv] at h
        cases p with
        | nil =>
            simp at h
            obtain ⟨hvm, hrest⟩ := h
            exact ⟨[], rest, by simp [hvm], rfl, hrest, hvm ▸ hPv⟩
        | cons u p' =>
            simp at h
            obtain ⟨huv, hrest⟩ := h
            obtain ⟨l1, l2, hsplit, hf1, hf2, hPm⟩ := ih p' s m hrest
            exact ⟨v :: l1, l2, by simp [hsplit], by simp [List.filter_cons, hPv, hf1, ← huv],
              hf2, hPm⟩
      · rw [List.filter_cons, if_neg hPv] at h
        obtain ⟨l1, l2, hsplit, hf1, hf2, hPm⟩ := ih p s m h
        refine ⟨v :: l1, l2, by simp [hsplit], ?_, hf2, hPm⟩
        rw [List.filter_cons, if_neg hPv, hf1]

theorem addPairs_append :
    ∀ (ps qs : List (Nat × Nat)) (c : CSP),
    addPairs c (ps ++ qs) =
      match addPairs c ps with
      | .error e => .error e
      | .ok c' => addPairs c' qs := by
  intro ps
  induction ps with
  | nil => intro qs c; simp [addPairs]
  | cons p ps' ih =>
      intro qs c
      obtain ⟨i, j⟩ := p
      by_cases hij : i = j
      · simp only [List.cons_append, addPairs, if_pos hij]
        exact ih qs c
      · simp only [List.cons_append, addPairs, if_neg hij]
        cases add_constraint_one_way c i j neqPred with
        | error e => simp
        | ok c' => simp [ih qs c']

theorem lookupKey_map_const_of_mem {c : Nat → Nat → Bool} :
    ∀ (ts : List Nat) (j : Nat), j ∈ ts →
    lookupKey (ts.map (fun t => (t, c))) j = some c := by
  intro ts
  induction ts with
  | nil => intro j hj; simp at hj
  | cons t ts' ih =>
      intro j hj
      by_cases hjt : t = j
      · simp [lookupKey, hjt]
      · rcases List.mem_cons.mp hj with h | h
        · exact absurd h.symm hjt
        · simp [lookupKey, hjt, ih j h]

theorem addPairs_block (i : Nat) :
    ∀ (ys : List Nat) (c : CSP) (mc : CMap),
    lookupKey c.constraints i = some mc →
    (∀ j ∈ ys, j ≠ i → lookupKey mc j = none) →
    ys.Nodup →
    addPairs c (ys.map (fun j => (i, j))) = .ok
      { c with constraints :=
          (setKey c.constraints i
            (mc ++ (ys.filter (fun j => j ≠ i)).map (fun j => (j, neqPred)))) } := by
  intro ys
  induction ys with
  | nil =>
      intro c mc hmc _ _
      simp only [List.map_nil, addPairs, List.filter_nil, List.append_nil]
      rw [setKey_eq_self _ _ _ hmc]
  | cons j ys' ih =>
      intro c mc hmc hfresh hnd
      simp only [List.map_cons, addPairs]
      by_cases hij : i = j
      · rw [if_pos hij]
        have := ih c mc hmc (fun j' hj' => hfresh j' (by simp [hj'])) (List.Nodup.of_cons hnd)
        rw [this]
        have hfilter : (j :: ys').filter (fun j' => decide (j' ≠ i))
            = ys'.filter (fun j' => decide (j' ≠ i)) := by
          rw [List.filter_cons]
          simp [← hij]
        rw [hfilter]
      · rw [if_neg hij]
        have hji : j ≠ i := fun h => hij h.symm
        have hmcj : lookupKey mc j = none := hfresh j (by simp) hji
        rw [add_constraint_one_way]
        simp only [hmc, hmcj]
        have hset : setKey mc j neqPred = mc ++ [(j, neqPred)] :=
          setKey_append_of_none mc j neqPred hmcj
        have hc2 : lookupKey (setKey c.constraints i (setKey mc j neqPred)) i
            = some (mc ++ [(j, neqPred)]) := by
          rw [lookupKey_setKey_self, hset]
        have hfresh2 : ∀ j' ∈ ys', j' ≠ i →
            lookupKey (mc ++ [(j, neqPred)]) j' = none := by
          intro j' hj' hji'
          rw [lookupKey_append]
          have h1 : lookupKey mc j' = none := hfresh j' (by simp [hj']) hji'
          have hjj' : j ≠ j' := fun h => (List.nodup_cons.mp hnd).1 (h ▸ hj')
          have h2 : lookupKey [(j, neqPred)] j' = none := by
            simp [lookupKey, hjj']
          rw [h1, h2]
        have := ih ⟨c.varNames, c.domains,
            setKey c.constraints i (setKey mc j neqPred)⟩ (mc ++ [(j, neqPred)])
            hc2 hfresh2 (List.Nodup.of_cons hnd)
        rw [this]
        simp only [setKey_setKey]
        have hfilter : (j :: ys').filter (fun j' => decide (j' ≠ i))
            = j :: ys'.filter (fun j' => decide (j' ≠ i)) := by
          rw [List.filter_cons]
          simp [hji]
        rw [hfilter]
        simp [List.append_assoc]

theorem addPairs_outer (l : List Nat) (hl : l.Nodup) :
    ∀ (xs : List Nat) (c : CSP), xs.Nodup →
    (∀ v ∈ xs, ∃ m, lookupKey c.constraints v = some m ∧
        ∀ j ∈ l, lookupKey m j = none) →
    ∃ c', addPairs c (get_all_possible_pairs xs l) = .ok c' ∧
      (∀ k, k ∉ xs → lookupKey c'.constraints k = lookupKey c.constraints k) ∧
      (∀ k ∈ xs, ∀ m, lookupKey c.constraints k = some m →
          lookupKey c'.constraints k =
            some (m ++ (l.filter (fun j => j ≠ k)).map (fun j => (j, neqPred)))) ∧
      c'.constraints.map Prod.fst = c.constraints.map Prod.fst ∧
      c'.varNames = c.varNames ∧ c'.domains = c.domains := by
  intro xs
  induction xs with
  | nil =>
      intro c _ _
      exact ⟨c, by simp [get_all_possible_pairs, addPairs], fun k _ => rfl,
        fun k hk => absurd hk (by simp), rfl, rfl, rfl⟩
  | cons x xs' ih =>
      intro c hnd hreg
      obtain ⟨mx, hmx, hmxfresh⟩ := hreg x (by simp)
      have hblock := addPairs_block x l c mx hmx
        (fun j hj _ => hmxfresh j hj) hl
      set c1 : CSP :=
        { c with constraints :=
            (setKey c.constraints x
              (mx ++ (l.filter (fun j => j ≠ x)).map (fun j => (j, neqPred)))) } with hc1
      have hx_notin : x ∉ xs' := (List.nodup_cons.mp hnd).1
      have hreg1 : ∀ v ∈ xs', ∃ m, lookupKey c1.constraints v = some m ∧
          ∀ j ∈ l, lookupKey m j = none := by
        intro v hv
        obtain ⟨m, hm, hfresh⟩ := hreg v (by simp [hv])
        refine ⟨m, ?_, hfresh⟩
        rw [hc1]
        simp only []
        rw [lookupKey_setKey_ne _ _ _ _ (by intro h; subst h; exact hx_notin hv)]
        exact hm
      obtain ⟨c', heq, huntouched, hchar, hkeys, hvars, hdoms⟩ :=
        ih c1 (List.Nodup.of_cons hnd) hreg1
      refine ⟨c', ?_, ?_, ?_, ?_, ?_, ?_⟩
      · show addPairs c (get_all_possible_pairs (x :: xs') l) = .ok c'
        have : get_all_possible_pairs (x :: xs') l
            = l.map (fun y => (x, y)) ++ get_all_possible_pairs xs' l := rfl
        rw [this, addPairs_append, hblock]
        exact heq
      · intro k hk
        have hk1 : k ∉ xs' := fun h => hk (by simp [h])
        have hkx : k ≠ x := fun h => hk (by simp [h])
        rw [huntouched k hk1, hc1]
        simp only []
        exact lookupKey_setKey_ne _ _ _ _ hkx
      · intro k hk m hm
        rcases List.mem_cons.mp hk with h | h
        · subst h
          have hmmx : m = mx := by
            rw [hm] at hmx
            injection hmx
          subst hmmx
          rw [huntouched k hx_notin, hc1]
          simp only []
          rw [lookupKey_setKey_self]
        · have hkx : k ≠ x := fun hh => hx_notin (hh ▸ h)
          have hm1 : lookupKey c1.constraints k = some m := by
            rw [hc1]
            simp only []
            rw [lookupKey_setKey_ne _ _ _ _ hkx]
            exact hm
          exact hchar k h m hm1
      · rw [hkeys, hc1]
        simp only []
        exact setKey_keys_of_mem _ _ _ (by rw [hmx]; rfl)
      · rw [hvars]
      · rw [hdoms]

/-- The directed constraint arcs both of whose endpoints lie in `l`. -/
def arcsAmong (cs : Cons) (l : List Nat) : List (Nat × Nat) :=
  (get_all_arcs cs).filter (fun p => decide (p.1 ∈ l) && decide (p.2 ∈ l))

theorem length_filter_arcs_head (k : Nat) (l : List Nat) :
    ∀ (m : CMap),
    ((m.map (fun q => (k, q.1))).filter
        (fun p => decide (p.1 ∈ l) && decide (p.2 ∈ l))).length
      = if k ∈ l then ((m.map Prod.fst).filter (fun t => decide (t ∈ l))).length
        else 0 := by
  intro m
  induction m with
  | nil => simp
  | cons q rest ih =>
      obtain ⟨j, f⟩ := q
      by_cases hk : k ∈ l <;> by_cases hj : j ∈ l <;>
        simp [List.filter_cons, hk, hj, ih]

theorem count_arcsAmong (l : List Nat) (C : Nat) :
    ∀ (cs : Cons),
    (cs.map Prod.fst).Nodup →
    (∀ k m, lookupKey cs k = some m → k ∈ l →
        ((m.map Prod.fst).filter (fun t => decide (t ∈ l))).length = C) →
    (arcsAmong cs l).length
      = ((cs.map Prod.fst).filter (fun k => decide (k ∈ l))).length * C := by
  intro cs
  induction cs with
  | nil => intro _ _; simp [arcsAmong, get_all_arcs]
  | cons e rest ih =>
      intro hnd hcount
      obtain ⟨k, m⟩ := e
      simp only [List.map_cons] at hnd
      have hknod : k ∉ rest.map Prod.fst := (List.nodup_cons.mp hnd).1
      have hrest : (arcsAmong rest l).length
          = ((rest.map Prod.fst).filter (fun k => decide (k ∈ l))).length * C := by
        apply ih
        · exact (List.nodup_cons.mp hnd).2
        · intro k' m' hk' hkl'
          have hne : k ≠ k' := by
            intro h
            subst h
            have h0 : lookupKey rest k = none :=
              (lookupKey_eq_none_iff rest k).mpr hknod
            rw [hk'] at h0
            exact absurd h0 (by simp)
          have hstep : lookupKey ((k, m) :: rest) k' = lookupKey rest k' := by
            simp [lookupKey, hne]
          exact hcount k' m' (by rw [hstep]; exact hk') hkl'
      have hsplit : arcsAmong ((k, m) :: rest) l
          = (m.map (fun q => (k, q.1))).filter
              (fun p => decide (p.1 ∈ l) && decide (p.2 ∈ l)) ++ arcsAmong rest l := by
        simp [arcsAmong, get_all_arcs, List.filter_append]
      rw [hsplit, List.length_append, hrest, length_filter_arcs_head]
      by_cases hk : k ∈ l
      · have hcnt := hcount k m (by simp [lookupKey]) hk
        simp [List.filter_cons, hk, hcnt]
        ring
      · simp [List.filter_cons, hk]

theorem length_filter_ne (k : Nat) :
    ∀ (l : List Nat), l.Nodup → k ∈ l →
    (l.filter (fun x => decide (x ≠ k))).length = l.length - 1 := by
  intro l
  induction l with
  | nil => intro _ hk; simp at hk
  | cons x rest ih =>
      intro hnd hk
      obtain ⟨hx, hrest⟩ := List.nodup_cons.mp hnd
      by_cases hxk : x = k
      · subst hxk
        rw [List.filter_cons]
        simp only [decide_not]
        have : rest.filter (fun y => !decide (y = x)) = rest := by
          rw [List.filter_eq_self]
          intro a ha
          simp
          exact fun h => hx (h ▸ ha)
        simp [this]
      · rcases List.mem_cons.mp hk with h | h
        · exact absurd h.symm hxk
        · have hpos : 0 < rest.length := List.length_pos_of_mem h
          rw [List.filter_cons]
          simp only [decide_not]
          have := ih hrest h
          simp only [decide_not] at this
          simp [hxk, this]
          omega

theorem length_filter_mem (l : List Nat) :
    ∀ (keys : List Nat), keys.Nodup → l.Nodup → (∀ v ∈ l, v ∈ keys) →
    (keys.filter (fun k => decide (k ∈ l))).length = l.length := by
  intro keys hknd hlnd hsub
  have hperm : List.Perm (keys.filter (fun k => decide (k ∈ l))) l := by
    rw [List.perm_ext_iff_of_nodup (List.Nodup.filter _ hknd) hlnd]
    intro a
    simp only [List.mem_filter, decide_eq_true_eq]
    exact ⟨fun h => h.2, fun h => ⟨hsub a h, h⟩⟩
  exact hperm.length_eq

/- ## Concrete instances used to settle the claims -/

/-- A constraint predicate that accepts no pair. -/
def cFalse : Nat → Nat → Bool := fun _ _ => false

/-- A constraint predicate that accepts every pair. -/
def cTrue : Nat → Nat → Bool := fun _ _ => true

/-- Two variables; constraint 0→1 never satisfied, 1→0 always satisfied. -/
def exCons1 : Cons := [(0, [(1, cFalse)]), (1, [(0, cTrue)])]

def exDoms1 : Assignment := [(0, [0, 1]), (1, [5])]

def exCSP1 : CSP := ⟨[0, 1], exDoms1, exCons1⟩

/-- Two variables with symmetric not-equal constraints. -/
def exCons2 : Cons := [(0, [(1, neqPred)]), (1, [(0, neqPred)])]

/-- Both domains are the same singleton, so the not-equal CSP is
unsatisfiable and the initial propagation empties a domain. -/
def exCSP2 : CSP := ⟨[0, 1], [(0, [1]), (1, [1])], exCons2⟩

/-- An asymmetric graph: the constraint 0→1 is registered, 1→0 is not. -/
def exCons3 : Cons := [(0, [(1, neqPred)]), (1, [])]

def exCSP3 : CSP := ⟨[0, 1], [(0, [0, 1]), (1, [0, 1])], exCons3⟩

/-- Three variables; 0 and 1 reject every pair in both directions, 2 is
unconstrained. -/
def exCons4 : Cons := [(0, [(1, cFalse)]), (1, [(0, cFalse)]), (2, [])]

def exDoms4 : Assignment := [(0, [1, 2]), (1, [3]), (2, [9, 10])]

/-- The state of `exDoms4` after variable 2 is collapsed to the value 9. -/
def exNa4 : Assignment := [(0, [1, 2]), (1, [3]), (2, [9])]

/-- Claim C1: the spec says `backtracking_search` returns a non-`None`
result if and only if every domain in the returned assignment is a
singleton and every registered constraint holds on the chosen values.  The
code violates the forward direction: on `exCSP1` it returns the assignment
`{0: [1], 1: [5]}` even though the registered constraint 0→1 rejects the
pair (1, 5) — the initial AC-3 pass removes the value 0 from variable 0's
domain but, because `revise` removes elements of the list it is iterating
over, it never examines the value 1, and no later pass rechecks the arc. -/
theorem C1_driver_returns_inconsistent_assignment :
    backtracking_search 3 exCSP1 = .ok (some [(0, [1]), (1, [5])]) ∧
    lookupCons exCSP1.constraints 0 1 = some cFalse ∧
    cFalse 1 5 = false ∧
    lookupKey [(0, [1]), (1, [5])] 0 = some [1] ∧
    lookupKey [(0, [1]), (1, [5])] 1 = some [5] := by
  refine ⟨?_, rfl, rfl, rfl, rfl⟩
  simp [backtracking_search, backtrack, tryValues, allComplete,
    select_unassigned_variable, unassigned_vars, minLoop, keyLen,
    inference_nil, inference_cons_error, inference_cons_false,
    inference_cons_true_missing, inference_cons_true_empty,
    inference_cons_true_enqueue, inference_cons_true_missing_arcs,
    revise, reviseLoop, lookupKey, lookupCons, setKey, exCSP1, exCons1,
    exDoms1, cFalse, cTrue, get_all_neighboring_arcs, get_all_arcs, List.erase]

/-- Claim C2: the spec says one call of `revise(assignment, i, j)` removes
every value of i's domain that has no support in j's domain, and returns
true exactly when something was removed.  The code violates the first part:
with domain `[0, 1]` for variable 0, domain `[5]` for variable 1 and a
constraint 0→1 that rejects every pair, one call removes only the value 0
and leaves the equally unsupported value 1 in place, because
`assignment[i].remove(x)` shifts the list under the running iterator and
the iterator skips the element that slides into the freed slot. -/
theorem C2_revise_leaves_unsupported_value :
    revise exCons1 exDoms1 0 1 = .ok (true, [(0, [1]), (1, [5])]) ∧
    lookupCons exCons1 0 1 = some cFalse ∧
    List.all [5] (fun y => !cFalse 1 y) = true := by
  refine ⟨?_, rfl, rfl⟩
  simp [revise, reviseLoop, lookupKey, lookupCons, setKey, exCons1, exDoms1,
    cFalse, List.erase]

/-- Claim C3: the spec says the solver always returns an assignment or the
"no solution" value, never raising, in particular when the initial
propagation empties a domain.  The code violates this: on `exCSP2` the
initial AC-3 pass empties variable 0's domain, `backtracking_search`
ignores the `False` it returns, and `select_unassigned_variable` then
calls `min` on an empty list, raising `ValueError`. -/
theorem C3_driver_raises_value_error :
    backtracking_search 5 exCSP2 = .error .valueError := by
  simp [backtracking_search, backtrack, tryValues, allComplete,
    select_unassigned_variable, unassigned_vars, minLoop, keyLen,
    inference_nil, inference_cons_error, inference_cons_false,
    inference_cons_true_missing, inference_cons_true_empty,
    inference_cons_true_enqueue, inference_cons_true_missing_arcs,
    revise, reviseLoop, lookupKey, lookupCons, setKey, exCSP2, exCons2,
    neqPred, get_all_neighboring_arcs, get_all_arcs, List.erase]

/-- Claim C8: the spec says a second `inference` run on the result of a
completed first run, with the same initial queue, removes nothing and
returns true.  The code violates this: on `exCSP1`'s data the first run
returns true leaving `{0: [1], 1: [5]}`, but the value 1 kept by the
skipping `revise` is still unsupported, so the second run removes it,
empties the domain, and returns false. -/
theorem C8_second_inference_run_not_idempotent :
    inference exCons1 exDoms1 [(0, 1), (1, 0)] = .ok (true, [(0, [1]), (1, [5])]) ∧
    inference exCons1 [(0, [1]), (1, [5])] [(0, 1), (1, 0)] =
      .ok (false, [(0, []), (1, [5])]) := by
  constructor <;>
  simp [inference_nil, inference_cons_error, inference_cons_false,
    inference_cons_true_missing, inference_cons_true_empty,
    inference_cons_true_enqueue, inference_cons_true_missing_arcs,
    revise, reviseLoop, lookupKey, lookupCons, setKey, exCons1, exDoms1,
    cFalse, cTrue, get_all_neighboring_arcs, List.erase]

/-- Claim C10: the spec says that on a graph with a constraint registered
in only one direction the engine never looks up an unregistered constraint
entry.  The code violates this: on `exCSP3` (only 0→1 registered) the
driver collapses variable 0 and seeds the engine with the arc (1, 0)
fabricated by `get_all_neighboring_arcs` from 0's outgoing keys, and
`revise` then evaluates `self.constraints[1][0]`, which raises `KeyError`. -/
theorem C10_asymmetric_graph_key_error :
    lookupCons exCons3 1 0 = none ∧
    backtracking_search 5 exCSP3 = .error .keyError := by
  refine ⟨rfl, ?_⟩
  simp [backtracking_search, backtrack, tryValues, allComplete,
    select_unassigned_variable, unassigned_vars, minLoop, keyLen,
    inference_nil, inference_cons_error, inference_cons_false,
    inference_cons_true_missing, inference_cons_true_empty,
    inference_cons_true_enqueue, inference_cons_true_missing_arcs,
    revise, reviseLoop, lookupKey, lookupCons, setKey, exCSP3, exCons3,
    neqPred, get_all_neighboring_arcs, get_all_arcs, List.erase]

theorem filter_map_arcs (i j : Nat) :
    ∀ (m : CMap),
    (m.map (fun q => (q.1, i))).filter (fun k => decide (k.1 ≠ j))
      = ((m.map Prod.fst).filter (fun t => decide (t ≠ j))).map (fun t => (t, i)) := by
  intro m
  induction m with
  | nil => simp
  | cons q rest ih =>
      obtain ⟨t, f⟩ := q
      simp only [decide_not] at ih
      by_cases htj : t = j <;> simp [List.filter_cons, htj, ih]

/-- Claim C4: after a candidate value for the selected variable has been
tried and failed — either the engine reports inconsistency or the
recursive call returns `None` — the loop moves to the next candidate with
the parent assignment `a` exactly as it was before the attempt: the failed
branch worked only on the copy `setKey a var [v]`, and both continuations
below are `tryValues … a …` applied to the untouched parent.  This is the
branch-isolation discipline that `copy.deepcopy` buys the Python code. -/
theorem C4_sibling_branches_share_parent_state (cons : Cons) (vars : List Nat)
    (fuel : Nat) (a : Assignment) (var v : Nat) (vs : List Nat)
    (arcs : List (Nat × Nat)) (na : Assignment)
    (harc : get_all_neighboring_arcs cons var = some arcs) :
    (inference cons (setKey a var [v]) arcs = .ok (false, na) →
        tryValues cons vars fuel a var (v :: vs) = tryValues cons vars fuel a var vs) ∧
    (inference cons (setKey a var [v]) arcs = .ok (true, na) →
        backtrack cons vars fuel na = .ok none →
        tryValues cons vars fuel a var (v :: vs) = tryValues cons vars fuel a var vs) := by
  constructor
  · intro hinf
    rw [tryValues]
    simp [harc, hinf]
  · intro hinf hbt
    rw [tryValues]
    simp [harc, hinf, hbt]

/-- Claim C5: the AC-3 loop processes arcs first-in first-out and
(1) returns true when the queue empties; (2) if revising arc (i, j)
empties i's domain it returns false at once, whatever remains queued;
(3) if i's domain was revised but is non-empty, exactly the arcs (k, i)
for the neighbors k of i (the keys of `constraints[i]`) other than j are
appended at the back of the queue; (4) an unrevised arc is simply
dropped. -/
theorem C5_inference_queue_discipline (cons : Cons) (a a' : Assignment)
    (i j : Nat) (q : List (Nat × Nat)) (m : CMap) :
    (inference cons a [] = .ok (true, a)) ∧
    (revise cons a i j = .ok (true, a') → lookupKey a' i = some [] →
        inference cons a ((i, j) :: q) = .ok (false, a')) ∧
    (∀ d, revise cons a i j = .ok (true, a') → lookupKey a' i = some d →
        d ≠ [] → lookupKey cons i = some m →
        inference cons a ((i, j) :: q) =
          inference cons a' (q ++
            ((m.map Prod.fst).filter (fun t => t ≠ j)).map (fun t => (t, i)))) ∧
    (revise cons a i j = .ok (false, a') →
        inference cons a ((i, j) :: q) = inference cons a' q) := by
  refine ⟨inference_nil cons a, ?_, ?_, ?_⟩
  · intro hrev hempty
    exact inference_cons_true_empty cons a a' i j q hrev hempty
  · intro d hrev hd hdne hm
    have harcs : get_all_neighboring_arcs cons i
        = some (m.map (fun q => (q.1, i))) := by
      rw [get_all_neighboring_arcs, hm]
    rw [inference_cons_true_enqueue cons a a' i j q d _ hrev hd hdne harcs]
    rw [filter_map_arcs]
  · intro hrev
    exact inference_cons_false cons a a' i j q hrev

/-- Claim C6: when some variable's domain has length above one,
`select_unassigned_variable` returns a variable whose domain length is
above one and minimal among such variables, and every variable placed
before it in the registration order `vars` is either already decided or
has a strictly larger domain — so ties go to the earliest registered
variable, as Python's stable `min` guarantees. -/
theorem C6_select_unassigned_variable_mrv (vars : List Nat) (a : Assignment)
    (hall : ∀ v ∈ vars, (lookupKey a v).isSome)
    (hex : ∃ v ∈ vars, 1 < keyLen a v) :
    ∃ u, select_unassigned_variable vars a = .ok u ∧ u ∈ vars ∧
      1 < keyLen a u ∧
      (∀ w ∈ vars, 1 < keyLen a w → keyLen a u ≤ keyLen a w) ∧
      ∃ l1 l2, vars = l1 ++ u :: l2 ∧
        ∀ w ∈ l1, keyLen a w ≤ 1 ∨ keyLen a u < keyLen a w := by
  have hfil := unassigned_vars_eq_filter a vars hall
  obtain ⟨v, hv, hkv⟩ := hex
  have hvF : v ∈ vars.filter (fun w => decide (1 < keyLen a w)) := by
    rw [List.mem_filter]
    exact ⟨hv, by simp [hkv]⟩
  cases hF : vars.filter (fun w => decide (1 < keyLen a w)) with
  | nil => rw [hF] at hvF; simp at hvF
  | cons v0 rest =>
      rw [select_unassigned_variable, hfil, hF]
      obtain ⟨p, s, hsplit, hstrict, hle⟩ := minLoop_spec a rest v0
      set u := minLoop a v0 rest with hu
      have hFu : vars.filter (fun w => decide (1 < keyLen a w)) = p ++ u :: s := by
        rw [hF, hsplit]
      obtain ⟨l1, l2, hvars, hf1, hf2, hPu⟩ :=
        filter_split (fun w => decide (1 < keyLen a w)) vars p s u hFu
      have hku : 1 < keyLen a u := by simpa using hPu
      refine ⟨u, rfl, ?_, hku, ?_, l1, l2, hvars, ?_⟩
      · rw [hvars]
        simp
      · intro w hw hkw
        have hwF : w ∈ p ++ u :: s := by
          rw [← hFu, List.mem_filter]
          exact ⟨hw, by simp [hkw]⟩
        rcases List.mem_append.mp hwF with h | h
        · exact le_of_lt (hstrict w h)
        · rcases List.mem_cons.mp h with h2 | h2
          · subst h2; exact le_refl _
          · exact hle w h2
      · intro w hw
        by_cases hkw : 1 < keyLen a w
        · right
          apply hstrict
          rw [← hf1, List.mem_filter]
          exact ⟨hw, by simp [hkw]⟩
        · left
          omega

/-- Claim C7: every single operation that touches a domain only shrinks
it.  Three conjuncts: after `revise`, after a complete `inference` run,
and after the driver's collapse `new_assignment[var] = [value]` of a value
drawn from the variable's current domain, every variable's domain is a
subset of what it was before the operation. -/
theorem C7_domains_only_shrink :
    (∀ (cons : Cons) (a : Assignment) (i j : Nat) (b : Bool) (a' : Assignment),
        revise cons a i j = .ok (b, a') →
        ∀ v d', lookupKey a' v = some d' → ∃ d, lookupKey a v = some d ∧ d' ⊆ d) ∧
    (∀ (cons : Cons) (a : Assignment) (q : List (Nat × Nat)) (b : Bool)
        (a' : Assignment),
        inference cons a q = .ok (b, a') →
        ∀ v d', lookupKey a' v = some d' → ∃ d, lookupKey a v = some d ∧ d' ⊆ d) ∧
    (∀ (a : Assignment) (var val : Nat) (d : Dom),
        lookupKey a var = some d → val ∈ d →
        ∀ v d', lookupKey (setKey a var [val]) v = some d' →
          ∃ dd, lookupKey a v = some dd ∧ d' ⊆ dd) := by
  refine ⟨?_, ?_, ?_⟩
  · intro cons a i j b a' h
    exact revise_subset cons a i j b a' h
  · intro cons a q b a' h
    exact inference_subset cons a q b a' h
  · intro a var val d hvar hval v d' hv
    by_cases hvv : v = var
    · subst hvv
      rw [lookupKey_setKey_self] at hv
      injection hv with hv
      subst hv
      refine ⟨d, hvar, ?_⟩
      intro z hz
      rw [List.mem_singleton] at hz
      subst hz
      exact hval
    · rw [lookupKey_setKey_ne _ _ _ _ hvv] at hv
      exact ⟨d', hv, fun _ hm => hm⟩

/-- Claim C9: over a duplicate-free list `l` of registered variables with
no pre-existing constraints among them, `add_all_different_constraint`
succeeds, afterwards every ordered pair of distinct members of `l`
carries the not-equal predicate in both directions, and the number of
directed constraint arcs among the members of `l` is exactly
`l.length * (l.length - 1)`. -/
theorem C9_add_all_different_arc_count (c : CSP) (l : List Nat)
    (hlnd : l.Nodup)
    (hkeys : (c.constraints.map Prod.fst).Nodup)
    (hreg : ∀ v ∈ l, ∃ m, lookupKey c.constraints v = some m ∧
        ∀ j ∈ l, lookupKey m j = none) :
    ∃ c', add_all_different_constraint c l = .ok c' ∧
      (arcsAmong c'.constraints l).length = l.length * (l.length - 1) ∧
      ∀ i ∈ l, ∀ j ∈ l, i ≠ j → lookupCons c'.constraints i j = some neqPred := by
  obtain ⟨c', heq, huntouched, hchar, hkeys', hvars', hdoms'⟩ :=
    addPairs_outer l hlnd l c hlnd hreg
  refine ⟨c', heq, ?_, ?_⟩
  · have hcount : ∀ k m, lookupKey c'.constraints k = some m → k ∈ l →
        ((m.map Prod.fst).filter (fun t => decide (t ∈ l))).length
          = l.length - 1 := by
      intro k m hk hkl
      obtain ⟨mk, hmk, hmkfresh⟩ := hreg k hkl
      have hck := hchar k hkl mk hmk
      rw [hk] at hck
      injection hck with hck
      subst hck
      rw [List.map_append, List.map_map]
      have hsnd : ((l.filter (fun j => j ≠ k)).map
          ((fun p => p.1) ∘ fun j => (j, neqPred))) = l.filter (fun j => j ≠ k) := by
        simp [Function.comp_def]
      rw [hsnd, List.filter_append]
      have hnil : (mk.map Prod.fst).filter (fun t => decide (t ∈ l)) = [] := by
        rw [List.filter_eq_nil]
        intro t ht
        simp only [decide_eq_true_eq]
        intro htl
        have := hmkfresh t htl
        rw [lookupKey_eq_none_iff] at this
        exact this ht
      have hall : (l.filter (fun j => j ≠ k)).filter (fun t => decide (t ∈ l))
          = l.filter (fun j => j ≠ k) := by
        rw [List.filter_eq_self]
        intro t ht
        simp only [decide_eq_true_eq]
        exact List.mem_of_mem_filter ht
      rw [hnil, hall, List.nil_append]
      exact length_filter_ne k l hlnd hkl
    have hmain := count_arcsAmong l (l.length - 1) c'.constraints
      (by rw [hkeys']; exact hkeys) hcount
    rw [hmain, hkeys']
    have hsub : ∀ v ∈ l, v ∈ c.constraints.map Prod.fst := by
      intro v hv
      obtain ⟨m, hm, _⟩ := hreg v hv
      by_contra hcon
      rw [← lookupKey_eq_none_iff] at hcon
      rw [hm] at hcon
      exact absurd hcon (by simp)
    rw [length_filter_mem l (c.constraints.map Prod.fst) hkeys hlnd hsub]
  · intro i hi jj hj hij
    obtain ⟨mi, hmi, hmifresh⟩ := hreg i hi
    have hci := hchar i hi mi hmi
    have h1 : lookupKey mi jj = none := hmifresh jj hj
    have hjmem : jj ∈ l.filter (fun j => j ≠ i) := by
      rw [List.mem_filter]
      refine ⟨hj, ?_⟩
      simp only [decide_eq_true_eq]
      exact fun h => hij h.symm
    rw [lookupCons]
    simp only [hci, lookupKey_append, h1]
    exact lookupKey_map_const_of_mem _ jj hjmem

/-- A freshly built graph with two registered variables and no constraints. -/
def exFresh : CSP := add_variable (add_variable CSP.empty 0 [0, 1]) 1 [0, 1]

theorem C4_sibling_branches_share_parent_state_w :
    (tryValues exCons2 [0, 1] 7 [(0, [1, 2]), (1, [1])] 0 [1, 2]
        = tryValues exCons2 [0, 1] 7 [(0, [1, 2]), (1, [1])] 0 [2]) ∧
    (tryValues exCons4 [0, 1, 2] 1 exDoms4 2 [9, 10]
        = tryValues exCons4 [0, 1, 2] 1 exDoms4 2 [10]) := by
  constructor
  · exact (C4_sibling_branches_share_parent_state exCons2 [0, 1] 7
      [(0, [1, 2]), (1, [1])] 0 1 [2] [(1, 0)] [(0, [1]), (1, [])] rfl).1
      (by simp [inference_nil, inference_cons_error, inference_cons_false,
        inference_cons_true_missing, inference_cons_true_empty,
        inference_cons_true_enqueue, inference_cons_true_missing_arcs,
        revise, reviseLoop, lookupKey, lookupCons, setKey, exCons2, neqPred,
        get_all_neighboring_arcs, List.erase])
  · exact (C4_sibling_branches_share_parent_state exCons4 [0, 1, 2] 1
      exDoms4 2 9 [10] [] exNa4 rfl).2
      (by simp [inference_nil, setKey, exDoms4, exNa4, lookupKey])
      (by simp [backtrack, tryValues, allComplete, select_unassigned_variable,
        unassigned_vars, minLoop, keyLen,
        inference_nil, inference_cons_error, inference_cons_false,
        inference_cons_true_missing, inference_cons_true_empty,
        inference_cons_true_enqueue, inference_cons_true_missing_arcs,
        revise, reviseLoop, lookupKey, lookupCons, setKey, exCons4, exNa4,
        cFalse, get_all_neighboring_arcs, List.erase])

theorem C5_inference_queue_discipline_w :
    (inference exCons2 [(0, [1]), (1, [1])] [(0, 1), (1, 0)]
        = .ok (false, [(0, []), (1, [1])])) ∧
    (inference exCons1 exDoms1 [(0, 1)]
        = inference exCons1 [(0, [1]), (1, [5])]
            ([] ++ ((([(1, cFalse)] : CMap).map Prod.fst).filter
              (fun t => t ≠ 1)).map (fun t => (t, 0)))) ∧
    (inference exCons1 [(0, [1]), (1, [5])] [(1, 0)]
        = inference exCons1 [(0, [1]), (1, [5])] []) := by
  refine ⟨?_, ?_, ?_⟩
  · exact (C5_inference_queue_discipline exCons2 [(0, [1]), (1, [1])]
      [(0, []), (1, [1])] 0 1 [(1, 0)] []).2.1
      (by simp [revise, reviseLoop, lookupKey, lookupCons, setKey, exCons2,
        neqPred, List.erase]) rfl
  · exact (C5_inference_queue_discipline exCons1 exDoms1
      [(0, [1]), (1, [5])] 0 1 [] [(1, cFalse)]).2.2.1 [1]
      (by simp [revise, reviseLoop, lookupKey, lookupCons, setKey, exCons1,
        exDoms1, cFalse, List.erase]) rfl (by simp) rfl
  · exact (C5_inference_queue_discipline exCons1 [(0, [1]), (1, [5])]
      [(0, [1]), (1, [5])] 1 0 [] []).2.2.2
      (by simp [revise, reviseLoop, lookupKey, lookupCons, setKey, exCons1,
        cTrue, List.erase])

theorem C6_select_unassigned_variable_mrv_w :
    ∃ u, select_unassigned_variable [0, 1] [(0, [1, 2, 3]), (1, [4, 5])] = .ok u ∧
      u ∈ [0, 1] ∧
      1 < keyLen [(0, [1, 2, 3]), (1, [4, 5])] u ∧
      (∀ w ∈ [0, 1], 1 < keyLen [(0, [1, 2, 3]), (1, [4, 5])] w →
        keyLen [(0, [1, 2, 3]), (1, [4, 5])] u
          ≤ keyLen [(0, [1, 2, 3]), (1, [4, 5])] w) ∧
      ∃ l1 l2, [0, 1] = l1 ++ u :: l2 ∧
        ∀ w ∈ l1, keyLen [(0, [1, 2, 3]), (1, [4, 5])] w ≤ 1 ∨
          keyLen [(0, [1, 2, 3]), (1, [4, 5])] u
            < keyLen [(0, [1, 2, 3]), (1, [4, 5])] w :=
  C6_select_unassigned_variable_mrv [0, 1] [(0, [1, 2, 3]), (1, [4, 5])]
    (by decide) (by decide)

theorem C7_domains_only_shrink_w :
    (∃ d, lookupKey exDoms1 0 = some d ∧ [1] ⊆ d) ∧
    (∃ d, lookupKey exDoms1 1 = some d ∧ [5] ⊆ d) ∧
    (∃ dd, lookupKey exDoms1 0 = some dd ∧ [0] ⊆ dd) := by
  refine ⟨?_, ?_, ?_⟩
  · exact C7_domains_only_shrink.1 exCons1 exDoms1 0 1 true
      [(0, [1]), (1, [5])]
      (by simp [revise, reviseLoop, lookupKey, lookupCons, setKey, exCons1,
        exDoms1, cFalse, List.erase]) 0 [1] rfl
  · exact C7_domains_only_shrink.2.1 exCons1 exDoms1 [(0, 1), (1, 0)] true
      [(0, [1]), (1, [5])]
      (by simp [inference_nil, inference_cons_error, inference_cons_false,
        inference_cons_true_missing, inference_cons_true_empty,
        inference_cons_true_enqueue, inference_cons_true_missing_arcs,
        revise, reviseLoop, lookupKey, lookupCons, setKey, exCons1, exDoms1,
        cFalse, cTrue, get_all_neighboring_arcs, List.erase]) 1 [5] rfl
  · exact C7_domains_only_shrink.2.2 exDoms1 0 0 [0, 1] rfl (by decide)
      0 [0] (by simp [setKey, exDoms1, lookupKey])

theorem C9_add_all_different_arc_count_w :
    ∃ c', add_all_different_constraint exFresh [0, 1] = .ok c' ∧
      (arcsAmong c'.constraints [0, 1]).length
        = [0, 1].length * ([0, 1].length - 1) ∧
      ∀ i ∈ [0, 1], ∀ j ∈ [0, 1], i ≠ j →
        lookupCons c'.constraints i j = some neqPred :=
  C9_add_all_different_arc_count exFresh [0, 1] (by decide) (by decide)
    (by
      intro v hv
      fin_cases hv
      · exact ⟨[], rfl, fun j _ => rfl⟩
      · exact ⟨[], rfl, fun j _ => rfl⟩)
